/-
Verification of the WAL storage engine of the repository
(src/DAL/WALJsonStorage.h) against its natural-language specification.

The engine is embedded shallowly:

* `Rec` stands for the template parameter `T`: an opaque record carrying
  its unique integer identifier (`GetId()` becomes the field `id`) plus an
  opaque payload.
* `std::map<int, T> memoryIndex` becomes a strictly-sorted association
  list `List (Int × Rec)` with `mapInsert` (`memoryIndex[k] = v`),
  `mapErase` (`memoryIndex.erase(k)`) and `mapFind`
  (`memoryIndex.find(k)`); `std::set<int> deletedIds` becomes a sorted
  `List Int` with `setInsert`/`setErase`.
* A journal line is a `WALLine`: either a line that parses to an
  `Operation` (`json::parse` + `Operation::FromJson` succeed) or a
  malformed line (the `catch (...) {}` case of `ApplyWAL`).
* The snapshot file is a `SnapshotFile`: `unavailable` covers the cases
  the source skips over (file absent, unreadable, not parseable, or not a
  JSON array), `records rs` a readable array of records.
* The engine object together with its two backing files is an
  `EngineState`; the flags `walWritable`/`dataWritable` model whether
  opening the journal (resp. snapshot) file for writing succeeds.
  Each C++ method becomes a function on `EngineState`; methods that throw
  (`Update`, `Delete`, `LoadById`, `Compact`) return `Except StorageError`,
  where the error mirrors the `std::runtime_error` message of the source
  and is classified by the spec's taxonomy (NotFound / IOFailure).
-/
import Mathlib

namespace WALStore

/-- The record type: stands for the template parameter `T`.
`id` is `GetId()`; `payload` stands for the rest of the record. -/
structure Rec where
  id : Int
  payload : Nat
deriving DecidableEq, Repr

/-- Mirror of `enum class OperationType` of the source. -/
inductive OperationType where
  | INSERT
  | UPDATE
  | DELETE
deriving DecidableEq, Repr

/-- Mirror of `struct Operation<T>` of the source.  For a DELETE entry the source
leaves `data` default-constructed; we use `⟨0, 0⟩`. -/
structure Operation where
  type : OperationType
  id : Int
  data : Rec
  timestamp : Int
deriving DecidableEq, Repr

/-- One line of the journal file, already passed through
`json::parse` + `Operation::FromJson`: either it parses to an operation
(`well`) or parsing throws (`malformed`). -/
inductive WALLine where
  | well (op : Operation)
  | malformed
deriving DecidableEq, Repr

/-- Contents of the snapshot (data) file as `LoadIndex` sees them:
`unavailable` covers an absent, unreadable, unparseable or non-array
file (all skipped by the source's `catch (...)` / `is_array()` guard),
`records rs` a readable JSON array of records. -/
inductive SnapshotFile where
  | unavailable
  | records (rs : List Rec)
deriving DecidableEq, Repr

/-- Errors thrown by the engine, keeping the `std::runtime_error` message
of the throw site and classified by the spec's error taxonomy. -/
inductive StorageError where
  | notFound (msg : String)
  | ioFailure (msg : String)
deriving DecidableEq, Repr

/-- The in-memory index: `std::map<int, T>`, embedded as an association
list strictly sorted by key. -/
abbrev Index := List (Int × Rec)

/-- The assignment `memoryIndex[k] = v` on a sorted association list. -/
def mapInsert (k : Int) (v : Rec) : Index → Index
  | [] => [(k, v)]
  | (k', v') :: rest =>
    if k < k' then (k, v) :: (k', v') :: rest
    else if k = k' then (k, v) :: rest
    else (k', v') :: mapInsert k v rest

/-- The call `memoryIndex.erase(k)` on a sorted association list. -/
def mapErase (k : Int) : Index → Index
  | [] => []
  | (k', v') :: rest =>
    if k = k' then rest else (k', v') :: mapErase k rest

/-- The lookup `memoryIndex.find(k)`, as an `Option`. -/
def mapFind (k : Int) : Index → Option Rec
  | [] => none
  | (k', v') :: rest => if k = k' then some v' else mapFind k rest

/-- The call `std::set<int>::insert` on a sorted list of ids. -/
def setInsert (k : Int) : List Int → List Int
  | [] => [k]
  | k' :: rest =>
    if k < k' then k :: k' :: rest
    else if k = k' then k' :: rest
    else k' :: setInsert k rest

/-- The call `std::set<int>::erase` on a sorted list of ids. -/
def setErase (k : Int) : List Int → List Int
  | [] => []
  | k' :: rest => if k = k' then rest else k' :: setErase k rest

/-- The engine object together with its two backing files. -/
structure EngineState where
  /-- contents of the snapshot file at `dataFilePath` -/
  dataFile : SnapshotFile
  /-- lines of the journal file at `walFilePath` -/
  walFile : List WALLine
  memoryIndex : Index
  deletedIds : List Int
  operationsSinceCompact : Int
  compactThreshold : Int
  indexLoaded : Bool
  /-- whether opening the journal file for writing succeeds -/
  walWritable : Bool
  /-- whether opening the snapshot file for writing succeeds -/
  dataWritable : Bool
deriving DecidableEq, Repr

/-- One step of the replay loop of `ApplyWAL`, acting on
`(memoryIndex, deletedIds)`.  A line that fails to parse is skipped
(the `catch (...) {}` of the source). -/
def applyLine (p : Index × List Int) (l : WALLine) : Index × List Int :=
  match l with
  | .malformed => p
  | .well op =>
    match op.type with
    | .INSERT | .UPDATE => (mapInsert op.id op.data p.1, setErase op.id p.2)
    | .DELETE => (mapErase op.id p.1, setInsert op.id p.2)

/-- Source `WALJsonStorage::ApplyWAL`: replay every journal line, in order, onto
the index and the deleted-id set. -/
def ApplyWAL (lines : List WALLine) (p : Index × List Int) : Index × List Int :=
  lines.foldl applyLine p

/-- The action of one journal line on the index alone. -/
def applyLineIdx (idx : Index) (l : WALLine) : Index :=
  match l with
  | .malformed => idx
  | .well op =>
    match op.type with
    | .INSERT | .UPDATE => mapInsert op.id op.data idx
    | .DELETE => mapErase op.id idx

/-- Replay of the journal on the index alone. -/
def applyIdx (lines : List WALLine) (idx : Index) : Index :=
  lines.foldl applyLineIdx idx

/-- The snapshot-reading loop of `LoadIndex`:
`memoryIndex[item.GetId()] = item` for each record of the array; an
unavailable snapshot is skipped (first-run bootstrap). -/
def loadSnapshot (f : SnapshotFile) (idx : Index) : Index :=
  match f with
  | .unavailable => idx
  | .records rs => rs.foldl (fun m r => mapInsert r.id r m) idx

/-- Source `WALJsonStorage::LoadIndex`: a no-op once loaded; otherwise read the
snapshot into the index, replay the journal, and mark loaded. -/
def LoadIndex (s : EngineState) : EngineState :=
  if s.indexLoaded then s
  else
    let idx := loadSnapshot s.dataFile s.memoryIndex
    let p := ApplyWAL s.walFile (idx, s.deletedIds)
    { s with memoryIndex := p.1, deletedIds := p.2, indexLoaded := true }

/-- Source `WALJsonStorage::Compact`: write every record of the index to a fresh
snapshot (throwing if the snapshot file cannot be opened), truncate the
journal, reset the write counter, clear the deleted-id set.  The journal
truncation is the `std::ofstream(..., trunc)` open, which the source does
not check: it only empties the file when the open succeeds. -/
def Compact (s : EngineState) : Except StorageError EngineState :=
  if s.dataWritable then
    .ok { s with
      dataFile := SnapshotFile.records (s.memoryIndex.map Prod.snd),
      walFile := if s.walWritable then [] else s.walFile,
      operationsSinceCompact := 0,
      deletedIds := [] }
  else
    .error (.ioFailure "Cannot open data file for compaction")

/-- Source `WALJsonStorage::AppendToWAL`: append the entry to the journal if the
journal file opens (silently skipping the write otherwise), increment the
write counter, and compact once the counter reaches the threshold. -/
def AppendToWAL (op : Operation) (s : EngineState) : Except StorageError EngineState :=
  if s.compactThreshold ≤ s.operationsSinceCompact + 1 then
    Compact { s with
      walFile := if s.walWritable then s.walFile ++ [WALLine.well op] else s.walFile,
      operationsSinceCompact := s.operationsSinceCompact + 1 }
  else
    .ok { s with
      walFile := if s.walWritable then s.walFile ++ [WALLine.well op] else s.walFile,
      operationsSinceCompact := s.operationsSinceCompact + 1 }

/-- The constructor `WALJsonStorage(dataPath, compactAfter)`, on a fresh
directory (no snapshot, empty journal) with writable backing files. -/
def initState (t : Int) : EngineState :=
  { dataFile := .unavailable
    walFile := []
    memoryIndex := []
    deletedIds := []
    operationsSinceCompact := 0
    compactThreshold := t
    indexLoaded := false
    walWritable := true
    dataWritable := true }

/-- Source `WALJsonStorage::Insert`. -/
def Insert (item : Rec) (ts : Int) (s : EngineState) : Except StorageError EngineState :=
  AppendToWAL ⟨.INSERT, item.id, item, ts⟩
    { LoadIndex s with memoryIndex := mapInsert item.id item (LoadIndex s).memoryIndex }

/-- Source `WALJsonStorage::Update`: throws "Item not found for update" when the
id is absent from the index. -/
def Update (item : Rec) (ts : Int) (s : EngineState) : Except StorageError EngineState :=
  match mapFind item.id (LoadIndex s).memoryIndex with
  | none => .error (.notFound "Item not found for update")
  | some _ =>
    AppendToWAL ⟨.UPDATE, item.id, item, ts⟩
      { LoadIndex s with memoryIndex := mapInsert item.id item (LoadIndex s).memoryIndex }

/-- Source `WALJsonStorage::Delete`: throws "Item not found for deletion" when
the id is absent from the index. -/
def Delete (i : Int) (ts : Int) (s : EngineState) : Except StorageError EngineState :=
  match mapFind i (LoadIndex s).memoryIndex with
  | none => .error (.notFound "Item not found for deletion")
  | some _ =>
    AppendToWAL ⟨.DELETE, i, ⟨0, 0⟩, ts⟩
      { LoadIndex s with
        memoryIndex := mapErase i (LoadIndex s).memoryIndex,
        deletedIds := setInsert i (LoadIndex s).deletedIds }

/-- Source `WALJsonStorage::LoadById`: throws "Item not found" on a miss. -/
def LoadById (i : Int) (s : EngineState) : Except StorageError (EngineState × Rec) :=
  match mapFind i (LoadIndex s).memoryIndex with
  | none => .error (.notFound "Item not found")
  | some r => .ok (LoadIndex s, r)

/-- Source `WALJsonStorage::LoadAll`: every record of the index, in map
iteration order (ascending id). -/
def LoadAll (s : EngineState) : EngineState × List Rec :=
  (LoadIndex s, (LoadIndex s).memoryIndex.map Prod.snd)

/-- Source `WALJsonStorage::LoadRange`: `std::advance` by
`min(offset, size)`, then push entries while `count < limit`. -/
def LoadRange (offset limit : Int) (s : EngineState) : EngineState × List Rec :=
  (LoadIndex s,
    (((LoadIndex s).memoryIndex.drop
        (min offset ((LoadIndex s).memoryIndex.length : Int)).toNat).take limit.toNat).map
      Prod.snd)

/-- The lookup loop of `LoadByIds`: for each requested id in order, push
the record if present, silently skip it otherwise. -/
def loadByIdsLoop (idx : Index) : List Int → List Rec
  | [] => []
  | i :: rest =>
    match mapFind i idx with
    | some r => r :: loadByIdsLoop idx rest
    | none => loadByIdsLoop idx rest

/-- Source `WALJsonStorage::LoadByIds`. -/
def LoadByIds (ids : List Int) (s : EngineState) : EngineState × List Rec :=
  (LoadIndex s, loadByIdsLoop (LoadIndex s).memoryIndex ids)

/-- Source `WALJsonStorage::Save`: bulk replace — rebuild the index from the
supplied collection, compact (propagating its failure), mark loaded. -/
def Save (items : List Rec) (s : EngineState) : Except StorageError EngineState :=
  (Compact { s with memoryIndex := items.foldl (fun m r => mapInsert r.id r m) [] }).map
    (fun s2 => { s2 with indexLoaded := true })

/-- Source `WALJsonStorage::Clear`. -/
def Clear (s : EngineState) : Except StorageError EngineState :=
  Compact { s with memoryIndex := [], deletedIds := [] }

/-- Source `WALJsonStorage::ForceCompact`. -/
def ForceCompact (s : EngineState) : Except StorageError EngineState :=
  Compact s

/-- Source `WALJsonStorage::GetCount`. -/
def GetCount (s : EngineState) : Nat :=
  s.memoryIndex.length

/-- Source `WALJsonStorage::GetOperationsSinceCompact`. -/
def GetOperationsSinceCompact (s : EngineState) : Int :=
  s.operationsSinceCompact

/-- Source `WALJsonStorage::Exists`. -/
def ExistsItem (i : Int) (s : EngineState) : EngineState × Bool :=
  (LoadIndex s, (mapFind i (LoadIndex s).memoryIndex).isSome)

/-- One public operation of the engine, as a step of the state machine.
Successful `Insert`/`Update`/`Delete`/`Save`/`Clear`/`ForceCompact`
steps carry their defining equation; `query` is the state effect shared
by every read operation (`LoadById`, `LoadAll`, `LoadRange`,
`LoadByIds`, `Exists`) and by `Update`/`Delete` calls that throw
NotFound: all of them change the state exactly by `LoadIndex`. -/
inductive Step : EngineState → EngineState → Prop where
  | insert {item ts s s'} : Insert item ts s = .ok s' → Step s s'
  | update {item ts s s'} : Update item ts s = .ok s' → Step s s'
  | del {i ts s s'} : Delete i ts s = .ok s' → Step s s'
  | save {items s s'} : Save items s = .ok s' → Step s s'
  | clear {s s'} : Clear s = .ok s' → Step s s'
  | force {s s'} : ForceCompact s = .ok s' → Step s s'
  | query {s} : Step s (LoadIndex s)
  | restart {s t} : Step s { initState t with dataFile := s.dataFile, walFile := s.walFile }

/-- States reachable from a fresh store (constructor on an empty
directory with writable backing files) by public operations, including
process restarts that keep the backing files. -/
inductive Reachable : EngineState → Prop where
  | init (t : Int) : Reachable (initState t)
  | step {s s'} : Reachable s → Step s s' → Reachable s'

/-- Replay of the current backing files into an index, from scratch:
the snapshot records first, then the journal. -/
def replay (f : SnapshotFile) (lines : List WALLine) : Index :=
  applyIdx lines (loadSnapshot f [])

/-- The `std::map` representation invariant: keys strictly ascending. -/
def Sorted (l : Index) : Prop :=
  List.Pairwise (fun a b => a.1 < b.1) l

/-- Every entry of the index is stored under its own id (the engine only
ever writes `memoryIndex[x.GetId()] = x` or `memoryIndex[op.id] = op.data`
with `op.id = op.data.GetId()`). -/
def KeyConsistent (l : Index) : Prop :=
  ∀ p ∈ l, p.2.id = p.1

/-- A journal line as the engine itself writes it: it parses, and for an
Insert/Update entry the payload carries the entry's id. -/
def GoodLine (l : WALLine) : Prop :=
  ∃ op, l = .well op ∧ (op.data.id = op.id ∨ op.type = .DELETE)

/-- Whether a journal line is a parseable entry for the key `k`. -/
def touchesLine (k : Int) : WALLine → Bool
  | .well op => op.id == k
  | .malformed => false

lemma mem_mapInsert {p : Int × Rec} {k v} :
    ∀ {l : Index}, p ∈ mapInsert k v l → p = (k, v) ∨ p ∈ l := by
  intro l
  induction l with
  | nil => simp [mapInsert]
  | cons a rest ih =>
    obtain ⟨k', v'⟩ := a
    simp only [mapInsert]
    split
    · simp only [List.mem_cons]
      tauto
    · split
      · simp only [List.mem_cons]
        tauto
      · simp only [List.mem_cons]
        intro h
        rcases h with h | h
        · tauto
        · rcases ih h with h' | h' <;> tauto

lemma sorted_mapInsert {k v} : ∀ {l : Index}, Sorted l → Sorted (mapInsert k v l) := by
  intro l
  induction l with
  | nil => intro _; simp [mapInsert, Sorted]
  | cons a rest ih =>
    obtain ⟨k', v'⟩ := a
    intro h
    rw [Sorted, List.pairwise_cons] at h
    obtain ⟨hhead, htail⟩ := h
    simp only [mapInsert]
    split
    · rename_i hlt
      refine List.Pairwise.cons ?_ (List.Pairwise.cons hhead htail)
      intro b hb
      rcases List.mem_cons.mp hb with rfl | hb
      · exact hlt
      · exact lt_trans hlt (hhead b hb)
    · split
      · rename_i hlt heq
        subst heq
        exact List.Pairwise.cons hhead htail
      · rename_i hlt hne
        have hgt : k' < k := by omega
        refine List.Pairwise.cons ?_ (ih htail)
        intro b hb
        rcases mem_mapInsert hb with rfl | hb
        · exact hgt
        · exact hhead b hb

lemma mapErase_sublist (k : Int) : ∀ l : Index, (mapErase k l).Sublist l := by
  intro l
  induction l with
  | nil => simp [mapErase]
  | cons a rest ih =>
    obtain ⟨k', v'⟩ := a
    simp only [mapErase]
    split
    · exact List.sublist_cons_self _ _
    · exact List.Sublist.cons₂ _ ih

lemma sorted_mapErase {k : Int} {l : Index} (h : Sorted l) : Sorted (mapErase k l) :=
  List.Pairwise.sublist (mapErase_sublist k l) h

lemma mapFind_mapInsert_self (k : Int) (v : Rec) :
    ∀ l : Index, mapFind k (mapInsert k v l) = some v := by
  intro l
  induction l with
  | nil => simp [mapInsert, mapFind]
  | cons a rest ih =>
    obtain ⟨k', v'⟩ := a
    simp only [mapInsert]
    split
    · simp [mapFind]
    · split
      · simp [mapFind]
      · rename_i h1 h2
        simp [mapFind, h2, ih]

lemma mapFind_mapInsert_ne {j k : Int} (v : Rec) (hjk : j ≠ k) :
    ∀ l : Index, mapFind j (mapInsert k v l) = mapFind j l := by
  intro l
  induction l with
  | nil => simp [mapInsert, mapFind, hjk]
  | cons a rest ih =>
    obtain ⟨k', v'⟩ := a
    simp only [mapInsert]
    split
    · simp [mapFind, hjk]
    · split
      · rename_i h1 h2
        subst h2
        simp [mapFind, hjk]
      · by_cases hj : j = k'
        · subst hj
          simp [mapFind]
        · simp [mapFind, hj, ih]

lemma mapFind_eq_none_of_forall {k : Int} :
    ∀ {l : Index}, (∀ p ∈ l, k ≠ p.1) → mapFind k l = none := by
  intro l
  induction l with
  | nil => simp [mapFind]
  | cons a rest ih =>
    obtain ⟨k', v'⟩ := a
    intro h
    have hk : k ≠ k' := h (k', v') (by simp)
    simp only [mapFind, if_neg hk]
    exact ih fun p hp => h p (List.mem_cons_of_mem _ hp)

lemma mapFind_mapErase_self {k : Int} : ∀ {l : Index}, Sorted l → mapFind k (mapErase k l) = none := by
  intro l
  induction l with
  | nil => simp [mapErase, mapFind]
  | cons a rest ih =>
    obtain ⟨k', v'⟩ := a
    intro h
    rw [Sorted, List.pairwise_cons] at h
    obtain ⟨hhead, htail⟩ := h
    simp only [mapErase]
    split
    · rename_i heq
      subst heq
      exact mapFind_eq_none_of_forall fun p hp => ne_of_lt (hhead p hp)
    · rename_i hne
      simp [mapFind, hne, ih htail]

lemma mapFind_mapErase_ne {j k : Int} (hjk : j ≠ k) :
    ∀ l : Index, mapFind j (mapErase k l) = mapFind j l := by
  intro l
  induction l with
  | nil => simp [mapErase]
  | cons a rest ih =>
    obtain ⟨k', v'⟩ := a
    simp only [mapErase]
    split
    · rename_i heq
      subst heq
      simp [mapFind, hjk]
    · by_cases hj : j = k'
      · subst hj
        simp [mapFind]
      · simp [mapFind, hj, ih]

lemma mapFind_mem {k : Int} {v : Rec} :
    ∀ {l : Index}, mapFind k l = some v → (k, v) ∈ l := by
  intro l
  induction l with
  | nil => simp [mapFind]
  | cons a rest ih =>
    obtain ⟨k', v'⟩ := a
    simp only [mapFind]
    split
    · rename_i heq
      subst heq
      intro h
      simp at h
      simp [h]
    · intro h
      exact List.mem_cons_of_mem _ (ih h)

lemma head_key_min {k : Int} {v : Rec} {t : Index} (h : Sorted ((k, v) :: t))
    {j : Int} {w : Rec} (hm : (j, w) ∈ (k, v) :: t) : k ≤ j := by
  rcases List.mem_cons.mp hm with heq | hm
  · simp at heq
    omega
  · rw [Sorted, List.pairwise_cons] at h
    exact le_of_lt (h.1 (j, w) hm)

lemma mapInsert_last {k : Int} {v : Rec} :
    ∀ {l : Index}, (∀ p ∈ l, p.1 < k) → mapInsert k v l = l ++ [(k, v)] := by
  intro l
  induction l with
  | nil => simp [mapInsert]
  | cons a rest ih =>
    obtain ⟨k', v'⟩ := a
    intro h
    have hk : k' < k := h (k', v') (by simp)
    simp only [mapInsert, if_neg (by omega : ¬k < k'), if_neg (by omega : ¬k = k')]
    rw [ih fun p hp => h p (List.mem_cons_of_mem _ hp)]
    simp

/-- Two strictly-sorted association lists with the same lookup function
are equal. -/
lemma sorted_ext : ∀ {l l' : Index}, Sorted l → Sorted l' →
    (∀ k, mapFind k l = mapFind k l') → l = l' := by
  intro l
  induction l with
  | nil =>
    intro l' _ _ hf
    cases l' with
    | nil => rfl
    | cons a t' =>
      obtain ⟨k', v'⟩ := a
      have := hf k'
      simp [mapFind] at this
  | cons a t ih =>
    obtain ⟨k, v⟩ := a
    intro l' h h' hf
    cases l' with
    | nil =>
      have := hf k
      simp [mapFind] at this
    | cons b t' =>
      obtain ⟨k', v'⟩ := b
      have hkk' : k = k' := by
        have h1 : mapFind k ((k', v') :: t') = some v := by
          rw [← hf k]; simp [mapFind]
        have h2 : mapFind k' ((k, v) :: t) = some v' := by
          rw [hf k']; simp [mapFind]
        have hm1 := mapFind_mem h1
        have hm2 := mapFind_mem h2
        have := head_key_min h' hm1
        have := head_key_min h hm2
        omega
      subst hkk'
      have hvv' : v = v' := by
        have := hf k
        simp [mapFind] at this
        exact this
      subst hvv'
      have htails : ∀ j, mapFind j t = mapFind j t' := by
        intro j
        by_cases hj : j = k
        · subst hj
          rw [Sorted, List.pairwise_cons] at h h'
          rw [mapFind_eq_none_of_forall fun p hp => ne_of_lt (h.1 p hp),
            mapFind_eq_none_of_forall fun p hp => ne_of_lt (h'.1 p hp)]
        · have := hf j
          simpa [mapFind, hj] using this
      rw [Sorted, List.pairwise_cons] at h h'
      rw [ih h.2 h'.2 htails]

lemma applyLine_fst (p : Index × List Int) (l : WALLine) :
    (applyLine p l).1 = applyLineIdx p.1 l := by
  cases l with
  | malformed => rfl
  | well op => cases h : op.type <;> simp [applyLine, applyLineIdx, h]

lemma ApplyWAL_fst : ∀ (lines : List WALLine) (p : Index × List Int),
    (ApplyWAL lines p).1 = applyIdx lines p.1 := by
  intro lines
  induction lines with
  | nil => intro p; rfl
  | cons l rest ih =>
    intro p
    show (ApplyWAL rest (applyLine p l)).1 = applyIdx rest (applyLineIdx p.1 l)
    rw [ih, applyLine_fst]

lemma applyIdx_append (a b : List WALLine) (idx : Index) :
    applyIdx (a ++ b) idx = applyIdx b (applyIdx a idx) :=
  List.foldl_append _ _ _ _

lemma sorted_applyLineIdx {idx : Index} (h : Sorted idx) (l : WALLine) :
    Sorted (applyLineIdx idx l) := by
  cases l with
  | malformed => exact h
  | well op =>
    cases hty : op.type <;> simp [applyLineIdx, hty]
    · exact sorted_mapInsert h
    · exact sorted_mapInsert h
    · exact sorted_mapErase h

lemma sorted_applyIdx : ∀ (lines : List WALLine) {idx : Index}, Sorted idx →
    Sorted (applyIdx lines idx) := by
  intro lines
  induction lines with
  | nil => intro idx h; exact h
  | cons l rest ih =>
    intro idx h
    exact ih (sorted_applyLineIdx h l)

lemma sorted_insert_foldl : ∀ (rs : List Rec) {idx : Index}, Sorted idx →
    Sorted (rs.foldl (fun m r => mapInsert r.id r m) idx) := by
  intro rs
  induction rs with
  | nil => intro idx h; exact h
  | cons r rest ih =>
    intro idx h
    exact ih (sorted_mapInsert h)

lemma sorted_loadSnapshot {idx : Index} (f : SnapshotFile) (h : Sorted idx) :
    Sorted (loadSnapshot f idx) := by
  cases f with
  | unavailable => exact h
  | records rs => exact sorted_insert_foldl rs h

lemma sorted_replay (f : SnapshotFile) (lines : List WALLine) :
    Sorted (replay f lines) :=
  sorted_applyIdx lines (sorted_loadSnapshot f List.Pairwise.nil)

lemma kc_mapInsert {k v} {l : Index} (hv : v.id = k) (h : KeyConsistent l) :
    KeyConsistent (mapInsert k v l) := by
  intro p hp
  rcases mem_mapInsert hp with rfl | hp
  · exact hv
  · exact h p hp

lemma kc_mapErase {k} {l : Index} (h : KeyConsistent l) :
    KeyConsistent (mapErase k l) := fun p hp =>
  h p ((mapErase_sublist k l).mem hp)

lemma kc_applyLineIdx {idx : Index} {l : WALLine} (h : KeyConsistent idx)
    (hl : GoodLine l) : KeyConsistent (applyLineIdx idx l) := by
  obtain ⟨op, rfl, hop⟩ := hl
  cases hty : op.type <;> simp [applyLineIdx, hty]
  · refine kc_mapInsert ?_ h
    rcases hop with hop | hop
    · exact hop
    · rw [hty] at hop; cases hop
  · refine kc_mapInsert ?_ h
    rcases hop with hop | hop
    · exact hop
    · rw [hty] at hop; cases hop
  · exact kc_mapErase h

lemma kc_applyIdx : ∀ {lines : List WALLine} {idx : Index},
    (∀ l ∈ lines, GoodLine l) → KeyConsistent idx → KeyConsistent (applyIdx lines idx) := by
  intro lines
  induction lines with
  | nil => intro idx _ h; exact h
  | cons l rest ih =>
    intro idx hg h
    exact ih (fun x hx => hg x (List.mem_cons_of_mem _ hx))
      (kc_applyLineIdx h (hg l (by simp)))

lemma kc_insert_foldl : ∀ (rs : List Rec) {idx : Index}, KeyConsistent idx →
    KeyConsistent (rs.foldl (fun m r => mapInsert r.id r m) idx) := by
  intro rs
  induction rs with
  | nil => intro idx h; exact h
  | cons r rest ih =>
    intro idx h
    exact ih (kc_mapInsert rfl h)

lemma kc_loadSnapshot {idx : Index} (f : SnapshotFile) (h : KeyConsistent idx) :
    KeyConsistent (loadSnapshot f idx) := by
  cases f with
  | unavailable => exact h
  | records rs => exact kc_insert_foldl rs h

lemma kc_replay {f : SnapshotFile} {lines : List WALLine}
    (hg : ∀ l ∈ lines, GoodLine l) : KeyConsistent (replay f lines) :=
  kc_applyIdx hg (kc_loadSnapshot f (fun p hp => absurd hp (List.not_mem_nil p)))

/-- Writing the records of a sorted, key-consistent index back and
reloading them yields that index again: the compaction roundtrip. -/
lemma insert_foldl_values : ∀ {idx acc : Index}, Sorted (acc ++ idx) →
    KeyConsistent idx →
    (idx.map Prod.snd).foldl (fun m r => mapInsert r.id r m) acc = acc ++ idx := by
  intro idx
  induction idx with
  | nil => intro acc _ _; simp
  | cons a rest ih =>
    obtain ⟨k, v⟩ := a
    intro acc hs hkc
    have hvk : v.id = k := hkc (k, v) (by simp)
    have hacc : ∀ p ∈ acc, p.1 < k := by
      intro p hp
      have := (List.pairwise_append.mp hs).2.2 p hp (k, v) (by simp)
      exact this
    simp only [List.map_cons, List.foldl_cons, hvk]
    rw [mapInsert_last hacc]
    have hs' : Sorted ((acc ++ [(k, v)]) ++ rest) := by
      simpa using hs
    rw [ih hs' fun p hp => hkc p (List.mem_cons_of_mem _ hp)]
    simp

lemma replay_compacted {idx : Index} (hs : Sorted idx) (hkc : KeyConsistent idx) :
    replay (.records (idx.map Prod.snd)) [] = idx := by
  show loadSnapshot (.records (idx.map Prod.snd)) [] = idx
  show (idx.map Prod.snd).foldl (fun m r => mapInsert r.id r m) [] = idx
  simpa using @insert_foldl_values idx [] (by simpa using hs) hkc

@[simp] lemma LoadIndex_dataFile (s : EngineState) : (LoadIndex s).dataFile = s.dataFile := by
  unfold LoadIndex; split <;> rfl

@[simp] lemma LoadIndex_walFile (s : EngineState) : (LoadIndex s).walFile = s.walFile := by
  unfold LoadIndex; split <;> rfl

@[simp] lemma LoadIndex_operationsSinceCompact (s : EngineState) :
    (LoadIndex s).operationsSinceCompact = s.operationsSinceCompact := by
  unfold LoadIndex; split <;> rfl

@[simp] lemma LoadIndex_compactThreshold (s : EngineState) :
    (LoadIndex s).compactThreshold = s.compactThreshold := by
  unfold LoadIndex; split <;> rfl

@[simp] lemma LoadIndex_walWritable (s : EngineState) :
    (LoadIndex s).walWritable = s.walWritable := by
  unfold LoadIndex; split <;> rfl

@[simp] lemma LoadIndex_dataWritable (s : EngineState) :
    (LoadIndex s).dataWritable = s.dataWritable := by
  unfold LoadIndex; split <;> rfl

@[simp] lemma LoadIndex_indexLoaded (s : EngineState) :
    (LoadIndex s).indexLoaded = true := by
  unfold LoadIndex
  split
  · assumption
  · rfl

lemma LoadIndex_of_loaded {s : EngineState} (h : s.indexLoaded = true) :
    LoadIndex s = s := by
  unfold LoadIndex
  simp [h]

/-- The engine invariant on reachable states: backing files writable,
every journal line was written by the engine, a loaded index is exactly
the replay of the backing files, an unloaded index is empty, and the
write counter is below the threshold (or zero). -/
def Inv (s : EngineState) : Prop :=
  s.walWritable = true ∧
  s.dataWritable = true ∧
  (∀ l ∈ s.walFile, GoodLine l) ∧
  (s.indexLoaded = true → s.memoryIndex = replay s.dataFile s.walFile) ∧
  (s.indexLoaded = false → s.memoryIndex = []) ∧
  0 ≤ s.operationsSinceCompact ∧
  (s.operationsSinceCompact = 0 ∨ s.operationsSinceCompact < s.compactThreshold)

lemma LoadIndex_memoryIndex {s : EngineState} (h : Inv s) :
    (LoadIndex s).memoryIndex = replay s.dataFile s.walFile := by
  obtain ⟨-, -, -, hld, hunl, -, -⟩ := h
  cases hb : s.indexLoaded with
  | true => rw [LoadIndex_of_loaded hb]; exact hld hb
  | false =>
    unfold LoadIndex
    rw [hb]
    simp only [Bool.false_eq_true, if_false]
    show (ApplyWAL s.walFile (loadSnapshot s.dataFile s.memoryIndex, s.deletedIds)).1 =
      replay s.dataFile s.walFile
    rw [ApplyWAL_fst, hunl hb]
    rfl

lemma inv_LoadIndex {s : EngineState} (h : Inv s) : Inv (LoadIndex s) := by
  obtain ⟨hw, hd, hg, hld, hunl, hc0, hcb⟩ := h
  refine ⟨by simpa using hw, by simpa using hd, by simpa using hg, ?_, by simp, by simpa using hc0,
    by simpa using hcb⟩
  intro _
  rw [LoadIndex_memoryIndex ⟨hw, hd, hg, hld, hunl, hc0, hcb⟩]
  simp

lemma inv_sorted_kc {s : EngineState} (h : Inv s) :
    Sorted s.memoryIndex ∧ KeyConsistent s.memoryIndex := by
  obtain ⟨-, -, hg, hld, hunl, -, -⟩ := h
  cases hb : s.indexLoaded with
  | true =>
    rw [hld hb]
    exact ⟨sorted_replay _ _, kc_replay hg⟩
  | false =>
    rw [hunl hb]
    exact ⟨List.Pairwise.nil, fun p hp => absurd hp (List.not_mem_nil p)⟩

lemma Compact_ok_eq {s : EngineState} (hd : s.dataWritable = true) :
    Compact s = .ok { s with
      dataFile := SnapshotFile.records (s.memoryIndex.map Prod.snd),
      walFile := if s.walWritable then [] else s.walFile,
      operationsSinceCompact := 0,
      deletedIds := [] } := by
  simp [Compact, hd]

/-- Invariant after a successful `Compact`, stated from the facts the
callers can supply (the intermediate states of `Save` are not themselves
invariant states). -/
lemma inv_Compact {s s' : EngineState}
    (hw : s.walWritable = true) (hd : s.dataWritable = true)
    (hs : Sorted s.memoryIndex) (hkc : KeyConsistent s.memoryIndex)
    (hunl : s.indexLoaded = false → s.memoryIndex = [])
    (heq : Compact s = .ok s') : Inv s' := by
  rw [Compact_ok_eq hd] at heq
  cases heq
  refine ⟨hw, hd, ?_, ?_, hunl, le_refl 0, Or.inl rfl⟩
  · intro l hl
    rw [if_pos hw] at hl
    exact absurd hl (List.not_mem_nil l)
  · intro _
    show s.memoryIndex = replay (.records (s.memoryIndex.map Prod.snd)) (if s.walWritable then [] else s.walFile)
    rw [if_pos hw, replay_compacted hs hkc]

lemma inv_AppendToWAL {s s' : EngineState} {op : Operation}
    (hw : s.walWritable = true) (hd : s.dataWritable = true)
    (hg : ∀ l ∈ s.walFile, GoodLine l) (hop : GoodLine (WALLine.well op))
    (hld : s.indexLoaded = true)
    (hidx : s.memoryIndex = applyLineIdx (replay s.dataFile s.walFile) (WALLine.well op))
    (hc0 : 0 ≤ s.operationsSinceCompact)
    (heq : AppendToWAL op s = .ok s') : Inv s' := by
  unfold AppendToWAL at heq
  rw [if_pos hw] at heq
  have hg2 : ∀ l ∈ s.walFile ++ [WALLine.well op], GoodLine l := by
    intro l hl
    rcases List.mem_append.mp hl with hl | hl
    · exact hg l hl
    · simp at hl
      rw [hl]
      exact hop
  have hidx2 : s.memoryIndex = replay s.dataFile (s.walFile ++ [WALLine.well op]) := by
    rw [hidx]
    unfold replay
    rw [applyIdx_append]
    rfl
  by_cases hth : s.compactThreshold ≤ s.operationsSinceCompact + 1
  · rw [if_pos hth] at heq
    refine inv_Compact (s := { s with
        walFile := s.walFile ++ [WALLine.well op],
        operationsSinceCompact := s.operationsSinceCompact + 1 }) hw hd ?_ ?_ ?_ heq
    · show Sorted s.memoryIndex
      rw [hidx]
      exact sorted_applyLineIdx (sorted_replay _ _) _
    · show KeyConsistent s.memoryIndex
      rw [hidx]
      exact kc_applyLineIdx (kc_replay hg) hop
    · intro hb
      have hb' : s.indexLoaded = false := hb
      rw [hld] at hb'
      cases hb'
  · rw [if_neg hth] at heq
    cases heq
    refine ⟨hw, hd, hg2, fun _ => hidx2, ?_, by show (0 : Int) ≤ s.operationsSinceCompact + 1; omega,
      Or.inr (by show s.operationsSinceCompact + 1 < s.compactThreshold; omega)⟩
    intro hb
    have hb' : s.indexLoaded = false := hb
    rw [hld] at hb'
    cases hb'

lemma inv_Insert {s s' : EngineState} {item : Rec} {ts : Int}
    (h : Inv s) (heq : Insert item ts s = .ok s') : Inv s' := by
  have h1 := inv_LoadIndex h
  obtain ⟨hw, hd, hg, hld, -, hc0, -⟩ := h1
  unfold Insert at heq
  refine inv_AppendToWAL (s := { LoadIndex s with
      memoryIndex := mapInsert item.id item (LoadIndex s).memoryIndex })
    (by simpa using hw) (by simpa using hd) (by simpa using hg)
    ⟨⟨.INSERT, item.id, item, ts⟩, rfl, Or.inl rfl⟩ (by simp) ?_ (by simpa using hc0) heq
  show mapInsert item.id item (LoadIndex s).memoryIndex =
    applyLineIdx (replay (LoadIndex s).dataFile (LoadIndex s).walFile) _
  rw [LoadIndex_dataFile, LoadIndex_walFile, LoadIndex_memoryIndex h]
  rfl

lemma inv_Update {s s' : EngineState} {item : Rec} {ts : Int}
    (h : Inv s) (heq : Update item ts s = .ok s') : Inv s' := by
  have h1 := inv_LoadIndex h
  obtain ⟨hw, hd, hg, hld, -, hc0, -⟩ := h1
  unfold Update at heq
  cases hf : mapFind item.id (LoadIndex s).memoryIndex with
  | none => rw [hf] at heq; cases heq
  | some r =>
    rw [hf] at heq
    refine inv_AppendToWAL (s := { LoadIndex s with
        memoryIndex := mapInsert item.id item (LoadIndex s).memoryIndex })
      (by simpa using hw) (by simpa using hd) (by simpa using hg)
      ⟨⟨.UPDATE, item.id, item, ts⟩, rfl, Or.inl rfl⟩ (by simp) ?_ (by simpa using hc0) heq
    show mapInsert item.id item (LoadIndex s).memoryIndex =
      applyLineIdx (replay (LoadIndex s).dataFile (LoadIndex s).walFile) _
    rw [LoadIndex_dataFile, LoadIndex_walFile, LoadIndex_memoryIndex h]
    rfl

lemma inv_Delete {s s' : EngineState} {i ts : Int}
    (h : Inv s) (heq : Delete i ts s = .ok s') : Inv s' := by
  have h1 := inv_LoadIndex h
  obtain ⟨hw, hd, hg, hld, -, hc0, -⟩ := h1
  unfold Delete at heq
  cases hf : mapFind i (LoadIndex s).memoryIndex with
  | none => rw [hf] at heq; cases heq
  | some r =>
    rw [hf] at heq
    refine inv_AppendToWAL (s := { LoadIndex s with
        memoryIndex := mapErase i (LoadIndex s).memoryIndex,
        deletedIds := setInsert i (LoadIndex s).deletedIds })
      (by simpa using hw) (by simpa using hd) (by simpa using hg)
      ⟨⟨.DELETE, i, ⟨0, 0⟩, ts⟩, rfl, Or.inr rfl⟩ (by simp) ?_ (by simpa using hc0) heq
    show mapErase i (LoadIndex s).memoryIndex =
      applyLineIdx (replay (LoadIndex s).dataFile (LoadIndex s).walFile) _
    rw [LoadIndex_dataFile, LoadIndex_walFile, LoadIndex_memoryIndex h]
    rfl

lemma inv_Save {s s' : EngineState} {items : List Rec}
    (h : Inv s) (heq : Save items s = .ok s') : Inv s' := by
  obtain ⟨hw, hd, -, -, -, -, -⟩ := h
  unfold Save at heq
  rw [Compact_ok_eq (by simpa using hd)] at heq
  simp only [Except.map] at heq
  cases heq
  have hbs : Sorted (items.foldl (fun m r => mapInsert r.id r m) []) :=
    sorted_insert_foldl items List.Pairwise.nil
  have hbk : KeyConsistent (items.foldl (fun m r => mapInsert r.id r m) []) :=
    kc_insert_foldl items fun p hp => absurd hp (List.not_mem_nil p)
  refine ⟨hw, hd, ?_, ?_, ?_, le_refl 0, Or.inl rfl⟩
  · intro l hl
    rw [if_pos (show s.walWritable = true from hw)] at hl
    exact absurd hl (List.not_mem_nil l)
  · intro _
    show items.foldl (fun m r => mapInsert r.id r m) [] =
      replay (.records _) (if s.walWritable then [] else s.walFile)
    rw [if_pos hw, replay_compacted hbs hbk]
  · intro hb
    cases hb

lemma inv_Clear {s s' : EngineState} (h : Inv s) (heq : Clear s = .ok s') : Inv s' := by
  obtain ⟨hw, hd, -, -, -, -, -⟩ := h
  unfold Clear at heq
  rw [Compact_ok_eq (by simpa using hd)] at heq
  cases heq
  refine ⟨hw, hd, ?_, ?_, fun _ => rfl, le_refl 0, Or.inl rfl⟩
  · intro l hl
    rw [if_pos (by simpa using hw)] at hl
    exact absurd hl (List.not_mem_nil l)
  · intro _
    show ([] : Index) = replay (.records (List.map Prod.snd [])) (if s.walWritable then [] else s.walFile)
    rw [if_pos hw]
    rfl

lemma inv_ForceCompact {s s' : EngineState} (h : Inv s)
    (heq : ForceCompact s = .ok s') : Inv s' := by
  obtain ⟨hw, hd, hg, hld, hunl, hc0, hcb⟩ := h
  have hsk := inv_sorted_kc ⟨hw, hd, hg, hld, hunl, hc0, hcb⟩
  exact inv_Compact hw hd hsk.1 hsk.2 hunl heq

lemma inv_step {s s' : EngineState} (h : Inv s) (hs : Step s s') : Inv s' := by
  cases hs with
  | insert heq => exact inv_Insert h heq
  | update heq => exact inv_Update h heq
  | del heq => exact inv_Delete h heq
  | save heq => exact inv_Save h heq
  | clear heq => exact inv_Clear h heq
  | force heq => exact inv_ForceCompact h heq
  | query => exact inv_LoadIndex h
  | restart =>
    obtain ⟨-, -, hg, -, -, -, -⟩ := h
    exact ⟨rfl, rfl, hg, by simp [initState], fun _ => rfl, le_refl 0, Or.inl rfl⟩

lemma inv_init (t : Int) : Inv (initState t) :=
  ⟨rfl, rfl, fun l hl => absurd hl (List.not_mem_nil l), by simp [initState],
    fun _ => rfl, le_refl 0, Or.inl rfl⟩

lemma reachable_inv {s : EngineState} (h : Reachable s) : Inv s := by
  induction h with
  | init t => exact inv_init t
  | step _ hs ih => exact inv_step ih hs

lemma find_applyIdx_untouched : ∀ {lines : List WALLine} {idx : Index} {k : Int},
    (∀ l ∈ lines, touchesLine k l = false) →
    mapFind k (applyIdx lines idx) = mapFind k idx := by
  intro lines
  induction lines with
  | nil => intro idx k _; rfl
  | cons l rest ih =>
    intro idx k h
    have hl := h l (by simp)
    have hrest : ∀ x ∈ rest, touchesLine k x = false :=
      fun x hx => h x (List.mem_cons_of_mem _ hx)
    show mapFind k (applyIdx rest (applyLineIdx idx l)) = mapFind k idx
    rw [ih hrest]
    cases l with
    | malformed => rfl
    | well op =>
      have hne : op.id ≠ k := by simpa [touchesLine] using hl
      cases hty : op.type <;> simp only [applyLineIdx, hty]
      · exact mapFind_mapInsert_ne _ (Ne.symm hne) idx
      · exact mapFind_mapInsert_ne _ (Ne.symm hne) idx
      · exact mapFind_mapErase_ne (Ne.symm hne) idx

lemma find_applyIdx_touched : ∀ {lines : List WALLine} {k : Int},
    lines.any (touchesLine k) = true →
    ∀ {idx idx' : Index}, Sorted idx → Sorted idx' →
      mapFind k (applyIdx lines idx) = mapFind k (applyIdx lines idx') := by
  intro lines
  induction lines with
  | nil => intro k h; simp at h
  | cons l rest ih =>
    intro k h idx idx' hs hs'
    cases hr : rest.any (touchesLine k) with
    | true =>
      exact ih hr (sorted_applyLineIdx hs l) (sorted_applyLineIdx hs' l)
    | false =>
      have hl : touchesLine k l = true := by
        rcases (List.any_eq_true).mp h with ⟨x, hx, hpx⟩
        rcases List.mem_cons.mp hx with rfl | hx
        · exact hpx
        · exact absurd hpx (by
            have := (List.any_eq_false.mp hr) x hx
            simp [this])
      have hun : ∀ x ∈ rest, touchesLine k x = false := by
        intro x hx
        have := (List.any_eq_false.mp hr) x hx
        simpa using this
      cases l with
      | malformed => simp [touchesLine] at hl
      | well op =>
        have hid : op.id = k := by simpa [touchesLine] using hl
        show mapFind k (applyIdx rest (applyLineIdx idx (.well op))) =
          mapFind k (applyIdx rest (applyLineIdx idx' (.well op)))
        rw [find_applyIdx_untouched hun, find_applyIdx_untouched hun]
        subst hid
        cases hty : op.type <;> simp only [applyLineIdx, hty]
        · rw [mapFind_mapInsert_self, mapFind_mapInsert_self]
        · rw [mapFind_mapInsert_self, mapFind_mapInsert_self]
        · rw [mapFind_mapErase_self hs, mapFind_mapErase_self hs']

/-- Replaying the same journal a second time does not change the index. -/
lemma applyIdx_idem {lines : List WALLine} {idx : Index} (h : Sorted idx) :
    applyIdx lines (applyIdx lines idx) = applyIdx lines idx := by
  have h1 : Sorted (applyIdx lines idx) := sorted_applyIdx lines h
  have h2 : Sorted (applyIdx lines (applyIdx lines idx)) := sorted_applyIdx lines h1
  refine sorted_ext h2 h1 ?_
  intro k
  cases ha : lines.any (touchesLine k) with
  | true => exact find_applyIdx_touched ha h1 h
  | false =>
    exact find_applyIdx_untouched fun x hx => by
      simpa using (List.any_eq_false.mp ha) x hx

lemma chunk_join {α : Type} (k : Nat) :
    ∀ (n : Nat) (l : List α), l.length ≤ n * k →
      ((List.range n).map (fun i => (l.drop (i * k)).take k)).flatten = l := by
  intro n
  induction n with
  | zero =>
    intro l h
    simp only [Nat.zero_mul, Nat.le_zero, List.length_eq_zero] at h
    simp [h]
  | succ n ih =>
    intro l h
    have h' : l.length ≤ n * k + k := by
      calc l.length ≤ (n + 1) * k := h
        _ = n * k + k := by ring
    rw [List.range_succ_eq_map]
    simp only [List.map_cons, List.flatten_cons, List.map_map]
    have hcomp : ((List.range n).map ((fun i => (l.drop (i * k)).take k) ∘ Nat.succ)) =
        (List.range n).map (fun i => ((l.drop k).drop (i * k)).take k) := by
      refine List.map_congr_left ?_
      intro i _
      show (l.drop (Nat.succ i * k)).take k = ((l.drop k).drop (i * k)).take k
      rw [List.drop_drop]
      have harith : Nat.succ i * k = k + i * k := by
        rw [Nat.succ_mul]
        exact Nat.add_comm _ _
      rw [harith]
    rw [hcomp, ih (l.drop k) (by simp only [List.length_drop]; omega)]
    simp only [Nat.zero_mul, List.drop_zero]
    exact List.take_append_drop k l

lemma drop_min_len {α : Type} (l : List α) (i : Nat) :
    l.drop (min i l.length) = l.drop i := by
  by_cases h : i ≤ l.length
  · rw [Nat.min_eq_left h]
  · have hle : l.length ≤ i := by omega
    rw [Nat.min_eq_right hle, List.drop_length, List.drop_eq_nil_of_le hle]

lemma drop_min_toNat {α : Type} (l : List α) (off : Int) (h : 0 ≤ off) :
    l.drop (min off (l.length : Int)).toNat = l.drop off.toNat := by
  obtain ⟨a, rfl⟩ := Int.eq_ofNat_of_zero_le h
  rw [← Nat.cast_min, Int.toNat_natCast, Int.toNat_natCast, drop_min_len]

lemma loadByIdsLoop_eq_filterMap (idx : Index) :
    ∀ ids : List Int, loadByIdsLoop idx ids = ids.filterMap (fun i => mapFind i idx) := by
  intro ids
  induction ids with
  | nil => rfl
  | cons i rest ih =>
    cases hf : mapFind i idx with
    | none => simp [loadByIdsLoop, hf, List.filterMap_cons, ih]
    | some r => simp [loadByIdsLoop, hf, List.filterMap_cons, ih]

lemma AppendToWAL_compacts {s s' : EngineState} {op : Operation}
    (hw : s.walWritable = true) (hd : s.dataWritable = true)
    (hth : s.compactThreshold ≤ s.operationsSinceCompact + 1)
    (heq : AppendToWAL op s = .ok s') :
    s'.operationsSinceCompact = 0 ∧ s'.walFile = [] := by
  unfold AppendToWAL at heq
  rw [if_pos hth] at heq
  rw [Compact_ok_eq (by simpa using hd)] at heq
  cases heq
  refine ⟨rfl, ?_⟩
  simp [hw]

/-- C1: for every reachable engine state (a run from a fresh store by
public operations, including restarts that keep the backing files), the
in-memory index — once constructed — equals the replay of the snapshot
file and the journal file, replayed in journal order with Insert/Update
as upsert-by-id and Delete as remove-by-id; and lazy `LoadIndex`
reconstructs exactly that replay. -/
theorem spec_c1_memory_index_is_replay (s : EngineState) (h : Reachable s) :
    (s.indexLoaded = true → s.memoryIndex = replay s.dataFile s.walFile) ∧
    (LoadIndex s).memoryIndex = replay s.dataFile s.walFile := by
  have hInv := reachable_inv h
  exact ⟨hInv.2.2.2.1, LoadIndex_memoryIndex hInv⟩

theorem spec_c1_witness :
    (LoadIndex (EngineState.mk .unavailable [.well ⟨.INSERT, 1, ⟨1, 5⟩, 0⟩]
        [(1, ⟨1, 5⟩)] [] 1 10 true true true)).memoryIndex =
      replay .unavailable [.well ⟨.INSERT, 1, ⟨1, 5⟩, 0⟩] :=
  (spec_c1_memory_index_is_replay _
    (Reachable.step (Reachable.init 10)
      (@Step.insert ⟨1, 5⟩ 0 (initState 10) _ rfl))).2

/-- C2: replaying a journal twice (without truncation) onto a sorted
starting index and deleted-id set yields the same final index as
replaying it once. -/
theorem spec_c2_replay_idempotent (lines : List WALLine) (idx : Index) (del : List Int)
    (h : Sorted idx) :
    (ApplyWAL lines (ApplyWAL lines (idx, del))).1 = (ApplyWAL lines (idx, del)).1 := by
  simp only [ApplyWAL_fst]
  exact applyIdx_idem h

theorem spec_c2_witness :
    (ApplyWAL [.well ⟨.INSERT, 1, ⟨1, 2⟩, 0⟩, .well ⟨.DELETE, 2, ⟨0, 0⟩, 0⟩]
        (ApplyWAL [.well ⟨.INSERT, 1, ⟨1, 2⟩, 0⟩, .well ⟨.DELETE, 2, ⟨0, 0⟩, 0⟩]
          ([(2, ⟨2, 9⟩)], []))).1 =
      (ApplyWAL [.well ⟨.INSERT, 1, ⟨1, 2⟩, 0⟩, .well ⟨.DELETE, 2, ⟨0, 0⟩, 0⟩]
        ([(2, ⟨2, 9⟩)], [])).1 :=
  spec_c2_replay_idempotent _ _ _ (by simp [Sorted, List.pairwise_cons])

/-- C3: for every reachable state, the records returned by `LoadAll`
immediately before a `ForceCompact` equal the records returned by
`LoadAll` immediately after it: compaction does not change the
observable collection. -/
theorem spec_c3_compaction_equivalence (s s₂ : EngineState) (h : Reachable s)
    (h2 : ForceCompact (LoadAll s).1 = .ok s₂) :
    (LoadAll s₂).2 = (LoadAll s).2 := by
  have hd2 : (LoadIndex s).dataWritable = true := by
    simpa using (reachable_inv h).2.1
  simp only [LoadAll] at h2 ⊢
  unfold ForceCompact at h2
  rw [Compact_ok_eq hd2] at h2
  cases h2
  rw [LoadIndex_of_loaded (by simp)]

theorem spec_c3_witness :
    (LoadAll (EngineState.mk (.records []) [] [] [] 0 3 true true true)).2 =
      (LoadAll (initState 3)).2 :=
  spec_c3_compaction_equivalence (initState 3) _ (Reachable.init 3) rfl

/-- C4 counterexample: with the journal file unopenable
(`walWritable = false`), an insert does not fail at all — it returns
successfully, silently skipping the journal write — contradicting the
claim that such a call fails with IOFailure. -/
theorem spec_c4_counterexample :
    (EngineState.mk .unavailable [] [] [] 0 100 true false true).walWritable = false ∧
    Insert ⟨1, 5⟩ 0 (EngineState.mk .unavailable [] [] [] 0 100 true false true) =
      .ok (EngineState.mk .unavailable [] [(1, ⟨1, 5⟩)] [] 1 100 true false true) :=
  ⟨rfl, rfl⟩

lemma AppendToWAL_silent {s : EngineState} {op : Operation}
    (hw : s.walWritable = false)
    (hth : s.operationsSinceCompact + 1 < s.compactThreshold) :
    AppendToWAL op s =
      .ok { s with operationsSinceCompact := s.operationsSinceCompact + 1 } := by
  unfold AppendToWAL
  rw [if_neg (by omega)]
  simp [hw]

lemma AppendToWAL_compact_fails {s : EngineState} {op : Operation}
    (hd : s.dataWritable = false)
    (hth : s.compactThreshold ≤ s.operationsSinceCompact + 1) :
    AppendToWAL op s = .error (.ioFailure "Cannot open data file for compaction") := by
  unfold AppendToWAL
  rw [if_pos hth]
  unfold Compact
  rw [if_neg (by simp [hd])]

/-- C4 (amended): on every write call — insert, update or delete — a
failure to open the journal file is silently ignored: the entry is
simply not journaled, the in-memory index is still updated, the write
counter still increments, and the call succeeds.  A write call fails
with the IOFailure-class error exactly when the compaction it triggers
cannot open the snapshot file. -/
theorem spec_c4_amended (s u : EngineState) (item : Rec) (k ts : Int) (r₁ r₂ r₃ r₄ : Rec)
    (hw : s.walWritable = false)
    (hth : s.operationsSinceCompact + 1 < s.compactThreshold)
    (hfi : mapFind item.id (LoadIndex s).memoryIndex = some r₁)
    (hfk : mapFind k (LoadIndex s).memoryIndex = some r₂)
    (hu : u.dataWritable = false)
    (huth : u.compactThreshold ≤ u.operationsSinceCompact + 1)
    (hgi : mapFind item.id (LoadIndex u).memoryIndex = some r₃)
    (hgk : mapFind k (LoadIndex u).memoryIndex = some r₄) :
    (Insert item ts s = .ok { LoadIndex s with
        memoryIndex := mapInsert item.id item (LoadIndex s).memoryIndex,
        operationsSinceCompact := s.operationsSinceCompact + 1 } ∧
      Update item ts s = .ok { LoadIndex s with
        memoryIndex := mapInsert item.id item (LoadIndex s).memoryIndex,
        operationsSinceCompact := s.operationsSinceCompact + 1 } ∧
      Delete k ts s = .ok { LoadIndex s with
        memoryIndex := mapErase k (LoadIndex s).memoryIndex,
        deletedIds := setInsert k (LoadIndex s).deletedIds,
        operationsSinceCompact := s.operationsSinceCompact + 1 }) ∧
    (Insert item ts u = .error (.ioFailure "Cannot open data file for compaction") ∧
      Update item ts u = .error (.ioFailure "Cannot open data file for compaction") ∧
      Delete k ts u = .error (.ioFailure "Cannot open data file for compaction")) := by
  have hwx : (LoadIndex s).walWritable = false := by simpa using hw
  have hux : (LoadIndex u).dataWritable = false := by simpa using hu
  refine ⟨⟨?_, ?_, ?_⟩, ?_, ?_, ?_⟩
  · unfold Insert
    rw [AppendToWAL_silent (s := { LoadIndex s with
        memoryIndex := mapInsert item.id item (LoadIndex s).memoryIndex })
      (by simpa using hw)
      (by simp only [LoadIndex_operationsSinceCompact, LoadIndex_compactThreshold]; omega)]
    simp
  · unfold Update
    rw [hfi]
    rw [AppendToWAL_silent (s := { LoadIndex s with
        memoryIndex := mapInsert item.id item (LoadIndex s).memoryIndex })
      (by simpa using hw)
      (by simp only [LoadIndex_operationsSinceCompact, LoadIndex_compactThreshold]; omega)]
    simp
  · unfold Delete
    rw [hfk]
    rw [AppendToWAL_silent (s := { LoadIndex s with
        memoryIndex := mapErase k (LoadIndex s).memoryIndex,
        deletedIds := setInsert k (LoadIndex s).deletedIds })
      (by simpa using hw)
      (by simp only [LoadIndex_operationsSinceCompact, LoadIndex_compactThreshold]; omega)]
    simp
  · unfold Insert
    exact AppendToWAL_compact_fails (s := { LoadIndex u with
        memoryIndex := mapInsert item.id item (LoadIndex u).memoryIndex })
      (by simpa using hu)
      (by simp only [LoadIndex_operationsSinceCompact, LoadIndex_compactThreshold]; omega)
  · unfold Update
    rw [hgi]
    exact AppendToWAL_compact_fails (s := { LoadIndex u with
        memoryIndex := mapInsert item.id item (LoadIndex u).memoryIndex })
      (by simpa using hu)
      (by simp only [LoadIndex_operationsSinceCompact, LoadIndex_compactThreshold]; omega)
  · unfold Delete
    rw [hgk]
    exact AppendToWAL_compact_fails (s := { LoadIndex u with
        memoryIndex := mapErase k (LoadIndex u).memoryIndex,
        deletedIds := setInsert k (LoadIndex u).deletedIds })
      (by simpa using hu)
      (by simp only [LoadIndex_operationsSinceCompact, LoadIndex_compactThreshold]; omega)

theorem spec_c4_witness :
    (Insert ⟨1, 9⟩ 0 (EngineState.mk .unavailable [] [(1, ⟨1, 5⟩)] [] 0 100 true false true) =
        .ok (EngineState.mk .unavailable [] [(1, ⟨1, 9⟩)] [] 1 100 true false true) ∧
      Update ⟨1, 9⟩ 0 (EngineState.mk .unavailable [] [(1, ⟨1, 5⟩)] [] 0 100 true false true) =
        .ok (EngineState.mk .unavailable [] [(1, ⟨1, 9⟩)] [] 1 100 true false true) ∧
      Delete 1 0 (EngineState.mk .unavailable [] [(1, ⟨1, 5⟩)] [] 0 100 true false true) =
        .ok (EngineState.mk .unavailable [] [] [1] 1 100 true false true)) ∧
    (Insert ⟨1, 9⟩ 0 (EngineState.mk .unavailable [] [(1, ⟨1, 5⟩)] [] 0 1 true true false) =
        .error (.ioFailure "Cannot open data file for compaction") ∧
      Update ⟨1, 9⟩ 0 (EngineState.mk .unavailable [] [(1, ⟨1, 5⟩)] [] 0 1 true true false) =
        .error (.ioFailure "Cannot open data file for compaction") ∧
      Delete 1 0 (EngineState.mk .unavailable [] [(1, ⟨1, 5⟩)] [] 0 1 true true false) =
        .error (.ioFailure "Cannot open data file for compaction")) :=
  spec_c4_amended (EngineState.mk .unavailable [] [(1, ⟨1, 5⟩)] [] 0 100 true false true)
    (EngineState.mk .unavailable [] [(1, ⟨1, 5⟩)] [] 0 1 true true false)
    ⟨1, 9⟩ 1 0 ⟨1, 5⟩ ⟨1, 5⟩ ⟨1, 5⟩ ⟨1, 5⟩
    rfl (by decide) rfl rfl rfl (by decide) rfl rfl

/-- C5: on an id absent from the (loaded) index, `Update` fails with the
NotFound error "Item not found for update", `Delete` with "Item not
found for deletion", and `LoadById` with "Item not found"; `LoadByIds`
never fails — it returns, in the caller-supplied order, exactly the
records of the ids that are present, silently omitting the absent
ones. -/
theorem spec_c5_missing_id (s : EngineState) (item : Rec) (ts k : Int) (ids : List Int)
    (h1 : mapFind item.id (LoadIndex s).memoryIndex = none)
    (h2 : mapFind k (LoadIndex s).memoryIndex = none) :
    Update item ts s = .error (.notFound "Item not found for update") ∧
    Delete k ts s = .error (.notFound "Item not found for deletion") ∧
    LoadById k s = .error (.notFound "Item not found") ∧
    (LoadByIds ids s).2 = ids.filterMap (fun i => mapFind i (LoadIndex s).memoryIndex) := by
  refine ⟨?_, ?_, ?_, ?_⟩
  · unfold Update
    rw [h1]
  · unfold Delete
    rw [h2]
  · unfold LoadById
    rw [h2]
  · simp only [LoadByIds]
    exact loadByIdsLoop_eq_filterMap _ ids

theorem spec_c5_witness :
    Update ⟨1, 7⟩ 0 (initState 100) = .error (.notFound "Item not found for update") ∧
    Delete 1 0 (initState 100) = .error (.notFound "Item not found for deletion") ∧
    LoadById 1 (initState 100) = .error (.notFound "Item not found") ∧
    (LoadByIds [1, 2] (initState 100)).2 =
      [1, 2].filterMap (fun i => mapFind i (LoadIndex (initState 100)).memoryIndex) :=
  spec_c5_missing_id (initState 100) ⟨1, 7⟩ 0 1 [1, 2] (by decide) (by decide)

/-- C6: a journal line that fails to parse is skipped and replay
continues with the remaining entries: replaying a journal with one
malformed line among well-formed lines produces exactly the state
produced by replaying the well-formed lines alone. -/
theorem spec_c6_malformed_line_skipped (pre post : List WALLine) (p : Index × List Int) :
    ApplyWAL (pre ++ WALLine.malformed :: post) p = ApplyWAL (pre ++ post) p := by
  unfold ApplyWAL
  rw [List.foldl_append, List.foldl_append]
  rfl

/-- C7: a write call (insert, update or delete) that brings the write
counter from `compactThreshold - 1` to `compactThreshold` triggers
compaction: afterwards `GetOperationsSinceCompact` returns 0 and the
journal file is empty. -/
theorem spec_c7_threshold_trigger (s s₁ s₂ s₃ : EngineState) (item₁ item₂ : Rec) (k ts : Int)
    (hw : s.walWritable = true) (hd : s.dataWritable = true)
    (hc : s.operationsSinceCompact + 1 = s.compactThreshold)
    (h1 : Insert item₁ ts s = .ok s₁)
    (h2 : Update item₂ ts s = .ok s₂)
    (h3 : Delete k ts s = .ok s₃) :
    (GetOperationsSinceCompact s₁ = 0 ∧ s₁.walFile = []) ∧
    (GetOperationsSinceCompact s₂ = 0 ∧ s₂.walFile = []) ∧
    (GetOperationsSinceCompact s₃ = 0 ∧ s₃.walFile = []) := by
  refine ⟨?_, ?_, ?_⟩
  · unfold Insert at h1
    exact AppendToWAL_compacts (by simpa using hw) (by simpa using hd)
      (by simp only [LoadIndex_compactThreshold, LoadIndex_operationsSinceCompact]; omega) h1
  · unfold Update at h2
    cases hf : mapFind item₂.id (LoadIndex s).memoryIndex with
    | none => rw [hf] at h2; cases h2
    | some r =>
      rw [hf] at h2
      exact AppendToWAL_compacts (by simpa using hw) (by simpa using hd)
        (by simp only [LoadIndex_compactThreshold, LoadIndex_operationsSinceCompact]; omega) h2
  · unfold Delete at h3
    cases hf : mapFind k (LoadIndex s).memoryIndex with
    | none => rw [hf] at h3; cases h3
    | some r =>
      rw [hf] at h3
      exact AppendToWAL_compacts (by simpa using hw) (by simpa using hd)
        (by simp only [LoadIndex_compactThreshold, LoadIndex_operationsSinceCompact]; omega) h3

theorem spec_c7_witness :
    (GetOperationsSinceCompact (EngineState.mk (.records [⟨1, 5⟩, ⟨2, 6⟩]) [] [(1, ⟨1, 5⟩), (2, ⟨2, 6⟩)] [] 0 1 true true true) = 0 ∧
      (EngineState.mk (.records [⟨1, 5⟩, ⟨2, 6⟩]) [] [(1, ⟨1, 5⟩), (2, ⟨2, 6⟩)] [] 0 1 true true true).walFile = []) ∧
    (GetOperationsSinceCompact (EngineState.mk (.records [⟨1, 9⟩]) [] [(1, ⟨1, 9⟩)] [] 0 1 true true true) = 0 ∧
      (EngineState.mk (.records [⟨1, 9⟩]) [] [(1, ⟨1, 9⟩)] [] 0 1 true true true).walFile = []) ∧
    (GetOperationsSinceCompact (EngineState.mk (.records []) [] [] [] 0 1 true true true) = 0 ∧
      (EngineState.mk (.records []) [] [] [] 0 1 true true true).walFile = []) :=
  spec_c7_threshold_trigger
    (EngineState.mk (.records [⟨1, 5⟩]) [] [(1, ⟨1, 5⟩)] [] 0 1 true true true)
    _ _ _ ⟨2, 6⟩ ⟨1, 9⟩ 1 0 rfl rfl (by decide) rfl rfl rfl

/-- C8: for every reachable engine state, `LoadAll` returns the live
records sorted by strictly ascending id, irrespective of the order in
which they were inserted. -/
theorem spec_c8_loadAll_sorted (s : EngineState) (h : Reachable s) :
    ((LoadAll s).2.map Rec.id).Pairwise (· < ·) := by
  have hInv := inv_LoadIndex (reachable_inv h)
  obtain ⟨hs, hkc⟩ := inv_sorted_kc hInv
  simp only [LoadAll]
  rw [List.map_map]
  have hmap : (LoadIndex s).memoryIndex.map (Rec.id ∘ Prod.snd) =
      (LoadIndex s).memoryIndex.map Prod.fst :=
    List.map_congr_left fun p hp => hkc p hp
  rw [hmap]
  exact List.pairwise_map.mpr hs

theorem spec_c8_witness :
    ((LoadAll (EngineState.mk .unavailable [.well ⟨.INSERT, 4, ⟨4, 2⟩, 0⟩]
        [(4, ⟨4, 2⟩)] [] 1 9 true true true)).2.map Rec.id).Pairwise (· < ·) :=
  spec_c8_loadAll_sorted _
    (Reachable.step (Reachable.init 9)
      (@Step.insert ⟨4, 2⟩ 0 (initState 9) _ rfl))

/-- C9: `LoadRange` skips `offset` entries of the ascending-id listing
(offset clamped to the collection size) and returns the next up-to-limit
entries — it equals drop-then-take on the `LoadAll` listing — and
concatenating the chunks `LoadRange (i * k) k` for `i = 0, 1, …` until
the collection is covered reproduces `LoadAll` exactly. -/
theorem spec_c9_range_consistency (s : EngineState) (k n : Nat) (off lim : Int)
    (_hk : 0 < k) (hoff : 0 ≤ off)
    (hcov : (LoadAll s).1.memoryIndex.length ≤ n * k) :
    ((List.range n).map
        (fun i => (LoadRange ((i * k : Nat) : Int) ((k : Nat) : Int) (LoadAll s).1).2)).flatten =
      (LoadAll s).2 ∧
    (LoadRange off lim (LoadAll s).1).2 = ((LoadAll s).2.drop off.toNat).take lim.toNat := by
  have hloaded : LoadIndex (LoadIndex s) = LoadIndex s :=
    LoadIndex_of_loaded (LoadIndex_indexLoaded s)
  have hrange : ∀ o l : Int, 0 ≤ o →
      (LoadRange o l (LoadIndex s)).2 =
        (((LoadIndex s).memoryIndex.map Prod.snd).drop o.toNat).take l.toNat := by
    intro o l ho
    simp only [LoadRange, hloaded]
    rw [drop_min_toNat _ o ho, List.map_take, List.map_drop]
  simp only [LoadAll] at hcov ⊢
  constructor
  · have hchunk : (List.range n).map
        (fun i => (LoadRange ((i * k : Nat) : Int) ((k : Nat) : Int) (LoadIndex s)).2) =
        (List.range n).map
          (fun i => (((LoadIndex s).memoryIndex.map Prod.snd).drop (i * k)).take k) := by
      refine List.map_congr_left ?_
      intro i _
      rw [hrange _ _ (Int.natCast_nonneg _)]
      rw [Int.toNat_natCast, Int.toNat_natCast]
    rw [hchunk]
    exact chunk_join k n _ (by simpa using hcov)
  · exact hrange off lim hoff

theorem spec_c9_witness :
    ((List.range 2).map
        (fun i => (LoadRange ((i * 2 : Nat) : Int) ((2 : Nat) : Int)
          (LoadAll (EngineState.mk .unavailable []
            [(1, ⟨1, 1⟩), (2, ⟨2, 2⟩), (3, ⟨3, 3⟩)] [] 0 9 true true true)).1).2)).flatten =
      (LoadAll (EngineState.mk .unavailable []
        [(1, ⟨1, 1⟩), (2, ⟨2, 2⟩), (3, ⟨3, 3⟩)] [] 0 9 true true true)).2 ∧
    (LoadRange 1 2 (LoadAll (EngineState.mk .unavailable []
        [(1, ⟨1, 1⟩), (2, ⟨2, 2⟩), (3, ⟨3, 3⟩)] [] 0 9 true true true)).1).2 =
      ((LoadAll (EngineState.mk .unavailable []
        [(1, ⟨1, 1⟩), (2, ⟨2, 2⟩), (3, ⟨3, 3⟩)] [] 0 9 true true true)).2.drop
          (1 : Int).toNat).take (2 : Int).toNat :=
  spec_c9_range_consistency _ 2 2 1 2 (by decide) (by decide) (by decide)

/-- C10: for every reachable engine state whose compaction threshold is
at least 1, the write counter observed at rest is in
`[0, compactThreshold - 1]`: a write that reaches the threshold
immediately compacts and resets it to 0, so it can never be observed at
or above the threshold. -/
theorem spec_c10_counter_below_threshold (s : EngineState) (h : Reachable s)
    (ht : 1 ≤ s.compactThreshold) :
    0 ≤ GetOperationsSinceCompact s ∧ GetOperationsSinceCompact s < s.compactThreshold := by
  obtain ⟨-, -, -, -, -, hc0, hcb⟩ := reachable_inv h
  unfold GetOperationsSinceCompact
  rcases hcb with hcb | hcb <;> omega

theorem spec_c10_witness :
    0 ≤ GetOperationsSinceCompact (initState 2) ∧
    GetOperationsSinceCompact (initState 2) < (initState 2).compactThreshold :=
  spec_c10_counter_below_threshold (initState 2) (Reachable.init 2) (by decide)

end WALStore
